import Mathlib

/-!
Verification of the matrix-factorization autoencoder notebook
(notebooks/09 Build an autoencoder.ipynb).

The notebook model (`MFAE`), its loss, the derived item-rating code, and
the minibatch `Loader` are embedded shallowly.  Real-valued tensors are
modelled over `ℚ`; a parameter matrix of shape (n, 1) becomes `List ℚ` and
one of shape (n, k) becomes `List (List ℚ)`.  The per-call uniform random
tensor `torch.rand(len(indices))` is modelled as an explicit list of draws
in [0, 1), one per event; an event is visible to the encoder exactly when
its draw is strictly greater than `frac`, mirroring
`mask = torch.rand(len(indices)) > self.frac`.
-/

/-- A rating event row of the batch matrix `indices`: column 0 is the user
id, column 1 the item id, column 4 the derived item-rating code (columns 2
and 3 are unused by the model). -/
structure Event where
  user : ℕ
  item : ℕ
  code : ℕ
deriving DecidableEq, Inhabited

/-- The MFAE model parameters, as created in `MFAE.__init__`:
two encoder tables indexed by item-rating code and two decoder tables
indexed by item id, together with the hyperparameters `k` and `c_vector`.
The four tables are independent fields: the decoder bias/vector tables are
a parameter space distinct from the encoder tables. -/
structure MFAE where
  k : ℕ
  c_vector : ℚ
  encoder_bias : List ℚ
  encoder_vect : List (List ℚ)
  decoder_bias : List ℚ
  decoder_vect : List (List ℚ)
deriving DecidableEq, Inhabited

/-- The all-zero k-dimensional vector. -/
def zeroVec (k : ℕ) : List ℚ := List.replicate k 0

/-- Elementwise vector addition. -/
def vadd (a b : List ℚ) : List ℚ := List.zipWith (· + ·) a b

/-- Dot product `(item_vect * user_vect).sum(dim=1)` of two k-vectors. -/
def dot (a b : List ℚ) : ℚ := (List.zipWith (· * ·) a b).sum

/-- Sum of a list of k-vectors. -/
def vsum (k : ℕ) (l : List (List ℚ)) : List ℚ := l.foldr vadd (zeroVec k)

/-- `mask = torch.rand(len(indices)) > self.frac`: one Boolean per event,
true (visible) exactly when the uniform draw of the event exceeds `frac`. -/
def maskList (frac : ℚ) (draws : List ℚ) : List Bool :=
  draws.map (fun r => decide (frac < r))

/-- The sub-list of events whose mask entry is true: the events fed to the
encoder aggregation `spmm(idx[:, mask], values[mask], ...)`. -/
def visibleEvents (batch : List Event) (mask : List Bool) : List Event :=
  (batch.zip mask).filterMap (fun p => if p.2 then some p.1 else none)

/-- `count = 1 + torch.bincount(indices[:, 0], minlength=n_user_max)`:
one plus the number of events of user `u` in the whole batch (the bincount
is taken before the mask is applied). -/
def smoothCount (batch : List Event) (u : ℕ) : ℚ :=
  1 + ((batch.countP (fun e => e.user == u) : ℕ) : ℚ)

/-- Row `u` of `user_bias_sum = spmm(idx[:, mask], values[mask], n_user_max,
self.encoder_bias)`: the sum over the visible entries whose row index is
`u` of the encoder bias at the column of the entry (item-rating code), each
weighted by the value 1. -/
def userBiasSum (m : MFAE) (ents : List Event) (u : ℕ) : ℚ :=
  (ents.map (fun e => if e.user = u then m.encoder_bias.getD e.code 0 else 0)).sum

/-- Row `u` of `user_vect_sum = spmm(idx[:, mask], values[mask], n_user_max,
self.encoder_vect)`: the vector sum over the visible entries with row `u`
of the encoder vector at the item-rating code of the entry. -/
def userVectSum (m : MFAE) (ents : List Event) (u : ℕ) : List ℚ :=
  ents.foldr
    (fun e acc => if e.user = u then vadd (m.encoder_vect.getD e.code (zeroVec m.k)) acc else acc)
    (zeroVec m.k)

/-- Row `u` of `user_bias_mean = user_bias_sum / count[:, None]`. -/
def userBiasMean (m : MFAE) (frac : ℚ) (draws : List ℚ) (batch : List Event) (u : ℕ) : ℚ :=
  userBiasSum m (visibleEvents batch (maskList frac draws)) u / smoothCount batch u

/-- Row `u` of `user_vect_mean = user_vect_sum / count[:, None]`. -/
def userVectMean (m : MFAE) (frac : ℚ) (draws : List ℚ) (batch : List Event) (u : ℕ) : List ℚ :=
  (userVectSum m (visibleEvents batch (maskList frac draws)) u).map (· / smoothCount batch u)

/-- `indices[:, 0].max()`: the largest user id in the batch (0 on an empty
batch, which the original would reject). -/
def maxUser (batch : List Event) : ℕ := (batch.map (fun e => e.user)).foldr max 0

/-- `n_user_max = indices[:, 0].max() + 1`: the number of rows of the
per-user aggregate arrays `user_bias_mean` / `user_vect_mean`. -/
def nUserMax (batch : List Event) : ℕ := maxUser batch + 1

/-- The decoder step for one event:
`log_odds = user_bias + item_bias + (item_vect * user_vect).sum(dim=1)`,
with the user bias/vector read from the encoder-side aggregates and the
item bias/vector read from the decoder tables at the item id of the event. -/
def scoreEvent (m : MFAE) (frac : ℚ) (draws : List ℚ) (batch : List Event) (e : Event) : ℚ :=
  userBiasMean m frac draws batch e.user
    + m.decoder_bias.getD e.item 0
    + dot (m.decoder_vect.getD e.item (zeroVec m.k)) (userVectMean m frac draws batch e.user)

/-- `MFAE.__call__`: one prediction (log-odds) per input event, in input
order.  `frac` is the masking fraction attribute and `draws` the per-event
uniform random draws of this forward pass. -/
def forward (m : MFAE) (frac : ℚ) (draws : List ℚ) (batch : List Event) : List ℚ :=
  batch.map (scoreEvent m frac draws batch)

/-- Modelled from the spec: the per-user mean bias in the words of the
spec, "summed value divided by (visible-count + 1)" — the divisor counts
only the visible events of the user in this pass.  Written to compare against `userBiasMean`,
which embeds the code. -/
def specUserBiasMean (m : MFAE) (frac : ℚ) (draws : List ℚ) (batch : List Event) (u : ℕ) : ℚ :=
  userBiasSum m (visibleEvents batch (maskList frac draws)) u
    / (1 + (((visibleEvents batch (maskList frac draws)).countP (fun e => e.user == u) : ℕ) : ℚ))

/-- `l2_regularize(array) = torch.sum(array ** 2.0)`: the sum of the
squares of every entry of a parameter matrix. -/
def l2_regularize (rows : List (List ℚ)) : ℚ :=
  (rows.map (fun r => (r.map (fun x => x ^ 2)).sum)).sum

/-- `F.mse_loss(log_odds, target)`: mean of the squared differences. -/
def mse_loss (pred target : List ℚ) : ℚ :=
  ((List.zipWith (fun p t => (p - t) ^ 2) pred target).sum) / (pred.length : ℚ)

/-- `MFAE.loss`: MSE plus `c_vector`-weighted L2 penalties on the encoder
and decoder vector tables (biases are not part of either penalty). -/
def MFAE.loss (m : MFAE) (pred target : List ℚ) : ℚ :=
  mse_loss pred target
    + l2_regularize m.encoder_vect * m.c_vector
    + l2_regularize m.decoder_vect * m.c_vector

/-- `item_code = train_x[:, 1] * 10 + train_y[:, 0].astype(int)`: the
derived item-rating code of an event. -/
def item_code (item rating : ℕ) : ℕ := item * 10 + rating

/-- `n_item_enc = n_item * 10 + 1`: the number of rows of the encoder
tables. -/
def n_item_enc (n_item : ℕ) : ℕ := n_item * 10 + 1

/-- The `Loader` state: the two parallel arrays, the batch size, the
iteration cursor `current`, and the `do_shuffle` flag. -/
structure Loader (α β : Type) where
  x : List α
  y : List β
  batchsize : ℕ
  current : ℕ
  do_shuffle : Bool
deriving DecidableEq

/-- `Loader.__next__`: raises StopIteration (here `none`) when
`self.current + n >= len(self.y)`, otherwise yields the slices
`x[i:i+n], y[i:i+n]` and advances the cursor by `n`. -/
def Loader.next {α β : Type} (s : Loader α β) : Option ((List α × List β) × Loader α β) :=
  if s.y.length ≤ s.current + s.batchsize then none
  else some (((s.x.drop s.current).take s.batchsize, (s.y.drop s.current).take s.batchsize),
             { s with current := s.current + s.batchsize })

/-- One full traversal of the loader: repeatedly call `Loader.next` until
it signals the end, collecting the yielded batches.  `fuel` bounds the
number of steps; `fuel = y.length` is always enough when the batch size is
at least 1. -/
def runLoader {α β : Type} (fuel : ℕ) (s : Loader α β) : List (List α × List β) :=
  match fuel with
  | 0 => []
  | fuel + 1 =>
    match s.next with
    | none => []
    | some (b, s') => b :: runLoader fuel s'

/-- The consecutive length-`B` slices of `x` and `y` starting at offset
`c`: `m` batches at offsets `c, c+B, c+2B, ...`. -/
def expectedBatches {α β : Type} (x : List α) (y : List β) (B c m : ℕ) :
    List (List α × List β) :=
  match m with
  | 0 => []
  | m + 1 => ((x.drop c).take B, (y.drop c).take B) :: expectedBatches x y B (c + B) m

/-- Apply a permutation, given as the list of source indices, to a list:
the model of what `sklearn.utils.shuffle` does with a fixed `random_state`
(the permutation is a function of the seed and the array length only). -/
def applyPerm {α : Type} (p : List ℕ) (l : List α) : List α :=
  p.filterMap (fun i => l[i]?)

/-- `Loader.__iter__`: when shuffling is enabled, re-shuffle the *current*
arrays jointly with the fixed-seed permutation
(`shuffle(self.x, self.y, random_state=0)`) and reset the cursor; `perm n`
is the seed-0 permutation of `n` indices supplied by the external
library. -/
def loaderIter {α β : Type} (perm : ℕ → List ℕ) (s : Loader α β) : Loader α β :=
  if s.do_shuffle then
    { s with
      x := applyPerm (perm s.y.length) s.x
      y := applyPerm (perm s.y.length) s.y
      current := 0 }
  else { s with current := 0 }

/-- A joint permutation family used as a concrete stand-in for the seed-0
shuffle: on arrays of length 2 it swaps the two rows. -/
def swapPerm (n : ℕ) : List ℕ := if n = 2 then [1, 0] else List.range n

/-- A small concrete model instance used as a test vector: k = 1, one
encoder code, one decoder item, all tables non-zero where it matters. -/
def sampleModel : MFAE :=
  { k := 1, c_vector := 0, encoder_bias := [2], encoder_vect := [[3]],
    decoder_bias := [5], decoder_vect := [[7]] }

/-- A one-event batch for the sample model. -/
def sampleBatch : List Event := [⟨0, 0, 0⟩]

/-- A model instance with two encoder codes, for exercising masks that
hide one of two events of the same user. -/
def twoCodeModel : MFAE :=
  { k := 1, c_vector := 0, encoder_bias := [6, 6], encoder_vect := [[0], [0]],
    decoder_bias := [0], decoder_vect := [[0]] }

/-- Two events of user 0 with distinct item-rating codes. -/
def twoEventBatch : List Event := [⟨0, 0, 0⟩, ⟨0, 0, 1⟩]

/-- The dot product with an all-zero right factor vanishes. -/
lemma dot_zeroVec (v : List ℚ) : ∀ k : ℕ, dot v (zeroVec k) = 0 := by
  induction v with
  | nil => intro k; simp [dot, zeroVec]
  | cons a t ih =>
    intro k
    cases k with
    | zero => simp [dot, zeroVec]
    | succ k =>
      have := ih k
      simp [dot, zeroVec, List.replicate_succ] at this ⊢
      simpa [dot, zeroVec] using this

/-- `userBiasSum` is the sum of the encoder biases of the entries whose
user matches, i.e. a grouped reduction over the filtered entry list. -/
lemma userBiasSum_filter (m : MFAE) (u : ℕ) :
    ∀ ents : List Event,
      userBiasSum m ents u
        = ((ents.filter (fun e => e.user == u)).map (fun e => m.encoder_bias.getD e.code 0)).sum := by
  intro ents
  induction ents with
  | nil => simp [userBiasSum]
  | cons e t ih =>
    by_cases h : e.user = u
    · simp [userBiasSum, List.filter_cons, h, beq_iff_eq] at ih ⊢
      simpa using ih
    · simp [userBiasSum, List.filter_cons, h, beq_iff_eq] at ih ⊢
      simpa using ih

/-- `userVectSum` is the vector sum of the encoder vectors of the entries
whose user matches. -/
lemma userVectSum_filter (m : MFAE) (u : ℕ) :
    ∀ ents : List Event,
      userVectSum m ents u
        = vsum m.k ((ents.filter (fun e => e.user == u)).map
            (fun e => m.encoder_vect.getD e.code (zeroVec m.k))) := by
  intro ents
  induction ents with
  | nil => simp [userVectSum, vsum]
  | cons e t ih =>
    by_cases h : e.user = u
    · simp [userVectSum, List.filter_cons, h, beq_iff_eq, vsum] at ih ⊢
      simp [ih]
    · simp [userVectSum, List.filter_cons, h, beq_iff_eq, vsum] at ih ⊢
      simp [ih]

/-- If no entry has user `u`, its spmm bias row is zero. -/
lemma userBiasSum_of_absent (m : MFAE) (u : ℕ) (ents : List Event)
    (h : ∀ e ∈ ents, e.user ≠ u) : userBiasSum m ents u = 0 := by
  induction ents with
  | nil => simp [userBiasSum]
  | cons e t ih =>
    have he : e.user ≠ u := h e (List.mem_cons_self e t)
    have ht : ∀ e ∈ t, e.user ≠ u := fun e hm => h e (List.mem_cons_of_mem _ hm)
    simp [userBiasSum, he] at ih ⊢
    simpa using ih ht

/-- If no entry has user `u`, its spmm vector row is the zero vector. -/
lemma userVectSum_of_absent (m : MFAE) (u : ℕ) (ents : List Event)
    (h : ∀ e ∈ ents, e.user ≠ u) : userVectSum m ents u = zeroVec m.k := by
  induction ents with
  | nil => simp [userVectSum]
  | cons e t ih =>
    have he : e.user ≠ u := h e (List.mem_cons_self e t)
    have ht : ∀ e ∈ t, e.user ≠ u := fun e hm => h e (List.mem_cons_of_mem _ hm)
    simp [userVectSum, he] at ih ⊢
    simpa using ih ht

/-- The smoothed divisor is strictly positive on every batch and user. -/
lemma smoothCount_pos (batch : List Event) (u : ℕ) : 0 < smoothCount batch u := by
  have : (0:ℚ) ≤ ((batch.countP (fun e => e.user == u) : ℕ) : ℚ) := Nat.cast_nonneg _
  simp only [smoothCount]
  linarith

/-- Reading the forward output at a position gives the score of the event
at the same position. -/
lemma forward_getD (m : MFAE) (frac : ℚ) (draws : List ℚ) (batch : List Event)
    (i : ℕ) (h : i < batch.length) :
    (forward m frac draws batch).getD i 0 = scoreEvent m frac draws batch (batch.getD i default) := by
  simp [forward, List.getD_eq_getElem?_getD, List.getElem?_map, List.getElem?_eq_getElem h]

/-- Every user id in the batch is bounded by the batch maximum. -/
lemma user_le_maxUser : ∀ (batch : List Event) (e : Event), e ∈ batch → e.user ≤ maxUser batch := by
  intro batch
  induction batch with
  | nil => intro e he; cases he
  | cons b t ih =>
    intro e he
    rcases List.mem_cons.mp he with h | h
    · subst h; simp [maxUser]
    · calc e.user ≤ maxUser t := ih e h
        _ ≤ max b.user (maxUser t) := le_max_right _ _
        _ = maxUser (b :: t) := by simp [maxUser]

/-- With `frac = 0` and strictly positive draws, the mask is all-true. -/
lemma maskList_zero_of_pos : ∀ d : List ℚ, (∀ r ∈ d, 0 < r) →
    maskList 0 d = List.replicate d.length true := by
  intro d
  induction d with
  | nil => intro _; rfl
  | cons r t ih =>
    intro h
    have hr : (0:ℚ) < r := h r (List.mem_cons_self r t)
    have ht := ih (fun a ha => h a (List.mem_cons_of_mem _ ha))
    simp [maskList, List.replicate_succ, hr] at ht ⊢
    exact ht

/-- An all-true mask of matching length hides nothing. -/
lemma visibleEvents_replicate_true : ∀ batch : List Event,
    visibleEvents batch (List.replicate batch.length true) = batch := by
  intro batch
  induction batch with
  | nil => rfl
  | cons e t ih => simp [visibleEvents, List.replicate_succ] at ih ⊢; exact ih

/-- With `frac = 0` and strictly positive draws covering the batch, every
event is visible to the encoder. -/
lemma visibleEvents_zero_frac (batch : List Event) (d : List ℚ)
    (hlen : d.length = batch.length) (hpos : ∀ r ∈ d, 0 < r) :
    visibleEvents batch (maskList 0 d) = batch := by
  rw [maskList_zero_of_pos d hpos, hlen, visibleEvents_replicate_true]

/-- The forward pass depends on the draws only through the visible-event
list. -/
lemma forward_congr_visible (m : MFAE) (frac : ℚ) (d1 d2 : List ℚ) (batch : List Event)
    (h : visibleEvents batch (maskList frac d1) = visibleEvents batch (maskList frac d2)) :
    forward m frac d1 batch = forward m frac d2 batch := by
  have hs : scoreEvent m frac d1 batch = scoreEvent m frac d2 batch := by
    funext e
    simp only [scoreEvent, userBiasMean, userVectMean]
    rw [h]
  simp only [forward, hs]

/-- The number of batches yielded by `expectedBatches`. -/
lemma expectedBatches_length {α β : Type} (x : List α) (y : List β) (B : ℕ) :
    ∀ (m c : ℕ), (expectedBatches x y B c m).length = m := by
  intro m
  induction m with
  | zero => intro c; rfl
  | succ m ih => intro c; simp [expectedBatches, ih]

/-- Every batch of `expectedBatches` within bounds consists of two slices
of exactly `B` rows. -/
lemma expectedBatches_row_len {α β : Type} (x : List α) (y : List β) (B : ℕ) (hB : 1 ≤ B) :
    ∀ (m c : ℕ), c + m * B ≤ x.length → c + m * B ≤ y.length →
      ∀ b ∈ expectedBatches x y B c m, b.1.length = B ∧ b.2.length = B := by
  intro m
  induction m with
  | zero => intro c _ _ b hb; cases hb
  | succ m ih =>
    intro c hx hy b hb
    rw [Nat.succ_mul] at hx hy
    rcases List.mem_cons.mp hb with h | h
    · subst h
      constructor
      · simp only [List.length_take, List.length_drop]
        omega
      · simp only [List.length_take, List.length_drop]
        omega
    · exact ih (c + B) (by omega) (by omega) b h

/-- Summing a constant row length over a list of batches. -/
lemma sum_map_row_len {α β : Type} (B : ℕ) :
    ∀ l : List (List α × List β), (∀ b ∈ l, b.2.length = B) →
      (l.map (fun b => b.2.length)).sum = l.length * B := by
  intro l
  induction l with
  | nil => intro _; simp
  | cons b t ih =>
    intro h
    have hb : b.2.length = B := h b (List.mem_cons_self b t)
    have ht := ih (fun a ha => h a (List.mem_cons_of_mem _ ha))
    simp [hb, ht, Nat.succ_mul]
    omega

/-- One traversal of the loader from cursor `c` yields exactly the
consecutive `B`-row slices at offsets `c, c+B, ...`, of which there are
`(len − c − 1) / B`: iteration stops as soon as `c + B ≥ len`. -/
lemma runLoader_eq_expected {α β : Type} (x : List α) (y : List β) (B : ℕ) (ds : Bool)
    (hB : 1 ≤ B) :
    ∀ (fuel c : ℕ), (y.length - c - 1) / B ≤ fuel →
      runLoader fuel ⟨x, y, B, c, ds⟩ = expectedBatches x y B c ((y.length - c - 1) / B) := by
  intro fuel
  induction fuel with
  | zero =>
    intro c h
    have h0 : (y.length - c - 1) / B = 0 := Nat.le_zero.mp h
    rw [h0]
    rfl
  | succ fuel ih =>
    intro c h
    by_cases hc : y.length ≤ c + B
    · have h0 : (y.length - c - 1) / B = 0 := Nat.div_eq_of_lt (by omega)
      rw [h0]
      simp [runLoader, Loader.next, hc, expectedBatches]
    · have hlt : c + B < y.length := by omega
      have key : y.length - c - 1 = (y.length - (c + B) - 1) + B := by omega
      have hdiv : (y.length - c - 1) / B = (y.length - (c + B) - 1) / B + 1 := by
        rw [key, Nat.add_div_right _ (by omega : 0 < B)]
      rw [hdiv]
      have step : runLoader (fuel + 1) (⟨x, y, B, c, ds⟩ : Loader α β)
          = ((x.drop c).take B, (y.drop c).take B)
            :: runLoader fuel (⟨x, y, B, c + B, ds⟩ : Loader α β) := by
        simp [runLoader, Loader.next, hc]
      rw [step, expectedBatches]
      have hfuel : (y.length - (c + B) - 1) / B ≤ fuel := by omega
      rw [ih (c + B) hfuel]

/-- The sum of the squares of the entries of a matrix is non-negative. -/
lemma l2_regularize_nonneg (rows : List (List ℚ)) : 0 ≤ l2_regularize rows := by
  apply List.sum_nonneg
  intro a ha
  rcases List.mem_map.mp ha with ⟨r, _, hr⟩
  subst hr
  apply List.sum_nonneg
  intro b hb
  rcases List.mem_map.mp hb with ⟨q, _, hq⟩
  subst hq
  positivity

/-- The sum of squared differences of two lists is non-negative. -/
lemma zipWith_sq_sum_nonneg : ∀ xs ys : List ℚ,
    0 ≤ (List.zipWith (fun p t => (p - t) ^ 2) xs ys).sum := by
  intro xs
  induction xs with
  | nil => intro ys; simp
  | cons a t ih =>
    intro ys
    cases ys with
    | nil => simp
    | cons b s =>
      have := ih s
      simp only [List.zipWith_cons_cons, List.sum_cons]
      have hsq : (0:ℚ) ≤ (a - b) ^ 2 := sq_nonneg _
      linarith

/-- The mean squared error is non-negative. -/
lemma mse_loss_nonneg (pred target : List ℚ) : 0 ≤ mse_loss pred target := by
  apply div_nonneg
  · exact zipWith_sq_sum_nonneg pred target
  · positivity

/-- Applying one permutation jointly to two parallel lists keeps their
rows paired: the zip of the permuted lists is the permuted zip. -/
lemma applyPerm_zip {α β : Type} (p : List ℕ) (x : List α) (y : List β)
    (hlen : x.length = y.length) (hp : ∀ i ∈ p, i < x.length) :
    (applyPerm p x).zip (applyPerm p y) = applyPerm p (x.zip y) := by
  induction p with
  | nil => rfl
  | cons i t ih =>
    have hi : i < x.length := hp i (List.mem_cons_self i t)
    have hi2 : i < y.length := by omega
    have hiz : i < (x.zip y).length := by
      rw [List.length_zip]
      omega
    have ht : ∀ j ∈ t, j < x.length := fun j hj => hp j (List.mem_cons_of_mem _ hj)
    simp only [applyPerm, List.filterMap_cons] at ih ⊢
    rw [List.getElem?_eq_getElem hi, List.getElem?_eq_getElem hi2, List.getElem?_eq_getElem hiz,
      List.getElem_zip]
    simp only [List.zip_cons_cons]
    rw [← ih ht]


/-- Claim C3: for every event in every batch, the predicted value equals the
mean bias of the user plus the decoder bias of the item plus the dot
product of the decoder vector of the item (from the decoder table, a
parameter space distinct from the encoder table) with the mean vector of
the user. -/
theorem claim3_prediction_formula (m : MFAE) (frac : ℚ) (draws : List ℚ)
    (batch : List Event) (i : ℕ) (h : i < batch.length) :
    (forward m frac draws batch).getD i 0
      = userBiasMean m frac draws batch (batch.getD i default).user
        + m.decoder_bias.getD (batch.getD i default).item 0
        + dot (m.decoder_vect.getD (batch.getD i default).item (zeroVec m.k))
            (userVectMean m frac draws batch (batch.getD i default).user) := by
  rw [forward_getD m frac draws batch i h]
  rfl

/-- Witness for C3 at a one-event batch. -/
theorem claim3_witness :
    0 < sampleBatch.length
    ∧ (forward sampleModel 0 [1] sampleBatch).getD 0 0
        = userBiasMean sampleModel 0 [1] sampleBatch (sampleBatch.getD 0 default).user
          + sampleModel.decoder_bias.getD (sampleBatch.getD 0 default).item 0
          + dot (sampleModel.decoder_vect.getD (sampleBatch.getD 0 default).item
                (zeroVec sampleModel.k))
              (userVectMean sampleModel 0 [1] sampleBatch (sampleBatch.getD 0 default).user) :=
  ⟨by decide, claim3_prediction_formula sampleModel 0 [1] sampleBatch 0 (by decide)⟩

/-- Claim C4: the forward pass returns exactly one prediction per input
event, in input order, and every event is scored whatever the masking
draws are: position i of the output is the decoder score of the event at
position i of the batch. -/
theorem claim4_one_prediction_per_event (m : MFAE) (frac : ℚ) (draws : List ℚ)
    (batch : List Event) :
    (forward m frac draws batch).length = batch.length
    ∧ ∀ i : ℕ, i < batch.length →
        (forward m frac draws batch).getD i 0
          = scoreEvent m frac draws batch (batch.getD i default) := by
  constructor
  · simp [forward]
  · intro i h
    exact forward_getD m frac draws batch i h

/-- Witness for C4: one prediction for the one event of a batch, even with
its event masked (draw 0). -/
theorem claim4_witness :
    (forward sampleModel 0 [0] sampleBatch).length = sampleBatch.length
    ∧ 0 < sampleBatch.length
    ∧ (forward sampleModel 0 [0] sampleBatch).getD 0 0
        = scoreEvent sampleModel 0 [0] sampleBatch (sampleBatch.getD 0 default) :=
  ⟨(claim4_one_prediction_per_event sampleModel 0 [0] sampleBatch).1, by decide,
   (claim4_one_prediction_per_event sampleModel 0 [0] sampleBatch).2 0 (by decide)⟩

/-- Claim C6: the total loss is the MSE plus c times the sum of squares of
the encoder vector table plus c times the sum of squares of the decoder
vector table; the bias tables contribute nothing; the loss is non-negative
for non-negative c and is exactly the MSE when c = 0. -/
theorem claim6_loss_shape (m : MFAE) (pred target : List ℚ)
    (_hlen : pred.length = target.length) :
    m.loss pred target
        = mse_loss pred target
          + m.c_vector * l2_regularize m.encoder_vect
          + m.c_vector * l2_regularize m.decoder_vect
    ∧ (∀ b1 b2 : List ℚ,
        ({ m with encoder_bias := b1, decoder_bias := b2 } : MFAE).loss pred target
          = m.loss pred target)
    ∧ (0 ≤ m.c_vector → 0 ≤ m.loss pred target)
    ∧ (m.c_vector = 0 → m.loss pred target = mse_loss pred target) := by
  refine ⟨?_, ?_, ?_, ?_⟩
  · simp only [MFAE.loss]
    ring
  · intro b1 b2
    rfl
  · intro hc
    have h1 := mse_loss_nonneg pred target
    have h2 := l2_regularize_nonneg m.encoder_vect
    have h3 := l2_regularize_nonneg m.decoder_vect
    have h4 : 0 ≤ l2_regularize m.encoder_vect * m.c_vector := mul_nonneg h2 hc
    have h5 : 0 ≤ l2_regularize m.decoder_vect * m.c_vector := mul_nonneg h3 hc
    simp only [MFAE.loss]
    linarith
  · intro h0
    simp [MFAE.loss, h0]

/-- Witness for C6 on a concrete prediction/target pair. -/
theorem claim6_witness :
    ([(3:ℚ)]).length = ([(1:ℚ)]).length
    ∧ (sampleModel.loss [3] [1]
        = mse_loss [3] [1]
          + sampleModel.c_vector * l2_regularize sampleModel.encoder_vect
          + sampleModel.c_vector * l2_regularize sampleModel.decoder_vect
      ∧ (∀ b1 b2 : List ℚ,
          ({ sampleModel with encoder_bias := b1, decoder_bias := b2 } : MFAE).loss [3] [1]
            = sampleModel.loss [3] [1])
      ∧ (0 ≤ sampleModel.c_vector → 0 ≤ sampleModel.loss [3] [1])
      ∧ (sampleModel.c_vector = 0 → sampleModel.loss [3] [1] = mse_loss [3] [1])) :=
  ⟨by decide, claim6_loss_shape sampleModel [3] [1] (by decide)⟩

/-- Claim C7: a user with zero visible ratings in a pass causes no
division by zero (the smoothed divisor is positive) and receives the zero
mean bias and zero mean vector, so each event of that user is predicted
as the decoder bias of its item alone, a value determined by the decoder
table. -/
theorem claim7_zero_visible_user (m : MFAE) (frac : ℚ) (draws : List ℚ)
    (batch : List Event) (u : ℕ)
    (h : ∀ e ∈ visibleEvents batch (maskList frac draws), e.user ≠ u) :
    0 < smoothCount batch u
    ∧ userBiasMean m frac draws batch u = 0
    ∧ userVectMean m frac draws batch u = zeroVec m.k
    ∧ ∀ i : ℕ, i < batch.length → (batch.getD i default).user = u →
        (forward m frac draws batch).getD i 0
          = m.decoder_bias.getD (batch.getD i default).item 0 := by
  have hb : userBiasMean m frac draws batch u = 0 := by
    simp [userBiasMean, userBiasSum_of_absent m u _ h]
  have hv : userVectMean m frac draws batch u = zeroVec m.k := by
    simp [userVectMean, userVectSum_of_absent m u _ h, zeroVec, List.map_replicate]
  refine ⟨smoothCount_pos batch u, hb, hv, ?_⟩
  intro i hi hu
  rw [forward_getD m frac draws batch i hi]
  simp only [scoreEvent, hu, hb, hv, dot_zeroVec]
  ring

/-- Witness for C7: a one-event batch whose only event is masked. -/
theorem claim7_witness :
    (∀ e ∈ visibleEvents sampleBatch (maskList 0 [0]), e.user ≠ 0)
    ∧ (0 < smoothCount sampleBatch 0
      ∧ userBiasMean sampleModel 0 [0] sampleBatch 0 = 0
      ∧ userVectMean sampleModel 0 [0] sampleBatch 0 = zeroVec sampleModel.k
      ∧ ∀ i : ℕ, i < sampleBatch.length → (sampleBatch.getD i default).user = 0 →
          (forward sampleModel 0 [0] sampleBatch).getD i 0
            = sampleModel.decoder_bias.getD (sampleBatch.getD i default).item 0) :=
  ⟨by decide, claim7_zero_visible_user sampleModel 0 [0] sampleBatch 0 (by decide)⟩

/-- Claim C8: every user id looked up in the decoder step is a valid row
index of the per-user aggregate arrays, which have `max user id + 1`
rows. -/
theorem claim8_user_index_in_range (batch : List Event) (e : Event) (h : e ∈ batch) :
    e.user < nUserMax batch :=
  Nat.lt_succ_of_le (user_le_maxUser batch e h)

/-- Witness for C8. -/
theorem claim8_witness :
    (⟨0, 0, 0⟩ : Event) ∈ sampleBatch ∧ (⟨0, 0, 0⟩ : Event).user < nUserMax sampleBatch :=
  ⟨by decide, claim8_user_index_in_range sampleBatch ⟨0, 0, 0⟩ (by decide)⟩

/-- Claim C1 (counterexample): the divisor of the claim (visible-rating-
count plus one) disagrees with the code on a user with two batch events of
which one is masked: the code divides the visible sum by (total batch
count + 1) = 3, the formula of the claim by (visible count + 1) = 2. -/
theorem claim1_counterexample :
    userBiasMean twoCodeModel 0 [1, 0] twoEventBatch 0
      ≠ specUserBiasMean twoCodeModel 0 [1, 0] twoEventBatch 0 := by
  norm_num [userBiasMean, specUserBiasMean, userBiasSum, smoothCount, visibleEvents, maskList,
    twoCodeModel, twoEventBatch, List.filterMap_cons, List.countP_cons]

/-- Claim C1 (amended): the mean bias and mean vector of each user are the
sums of the encoder bias/vector entries over the visible events of that
user in this pass, divided by one plus the TOTAL event count of the user
in the batch (the
bincount is taken before masking). -/
theorem claim1_mean_divisor (m : MFAE) (frac : ℚ) (draws : List ℚ)
    (batch : List Event) (u : ℕ) :
    userBiasMean m frac draws batch u
        = (((visibleEvents batch (maskList frac draws)).filter (fun e => e.user == u)).map
              (fun e => m.encoder_bias.getD e.code 0)).sum
          / (1 + ((batch.countP (fun e => e.user == u) : ℕ) : ℚ))
    ∧ userVectMean m frac draws batch u
        = (vsum m.k (((visibleEvents batch (maskList frac draws)).filter (fun e => e.user == u)).map
              (fun e => m.encoder_vect.getD e.code (zeroVec m.k)))).map
            (· / (1 + ((batch.countP (fun e => e.user == u) : ℕ) : ℚ))) := by
  constructor
  · simp only [userBiasMean, smoothCount, userBiasSum_filter]
  · simp only [userVectMean, smoothCount, userVectSum_filter]

/-- Claim C2 (counterexample): with N = 2 rows and batch size B = 1, one
traversal yields a single row, not ⌊N∕B⌋×B = 2: the `>=` stop test drops
the final full batch when B divides N. -/
theorem claim2_counterexample :
    ((runLoader 2 (⟨[5, 7], [5, 7], 1, 0, false⟩ : Loader ℕ ℕ)).map
        (fun b => b.2.length)).sum ≠ 2 / 1 * 1 := by decide

/-- Claim C2 (amended): one full traversal yields the consecutive B-row
slices at offsets 0, B, 2B, ... in increasing order, stopping as soon as B
or fewer rows remain (so the trailing remainder — and, when B divides N,
the final full batch — is dropped); the number of batches is ⌊(N−1)∕B⌋ and
the total number of rows yielded is ⌊(N−1)∕B⌋×B. -/
theorem claim2_loader_traversal (α β : Type) (x : List α) (y : List β) (B : ℕ) (ds : Bool)
    (hB : 1 ≤ B) (hxy : x.length = y.length) :
    runLoader y.length ⟨x, y, B, 0, ds⟩ = expectedBatches x y B 0 ((y.length - 1) / B)
    ∧ (runLoader y.length ⟨x, y, B, 0, ds⟩).length = (y.length - 1) / B
    ∧ (∀ b ∈ runLoader y.length (⟨x, y, B, 0, ds⟩ : Loader α β),
        b.1.length = B ∧ b.2.length = B)
    ∧ ((runLoader y.length (⟨x, y, B, 0, ds⟩ : Loader α β)).map
          (fun b => b.2.length)).sum = (y.length - 1) / B * B := by
  have hrun : runLoader y.length (⟨x, y, B, 0, ds⟩ : Loader α β)
      = expectedBatches x y B 0 ((y.length - 1) / B) := by
    have h0 : y.length - 0 - 1 = y.length - 1 := by omega
    have hfuel : (y.length - 0 - 1) / B ≤ y.length := by
      calc (y.length - 0 - 1) / B ≤ y.length - 0 - 1 := Nat.div_le_self _ _
        _ ≤ y.length := by omega
    have h := runLoader_eq_expected x y B ds hB y.length 0 hfuel
    rw [h0] at h
    exact h
  have hby : 0 + (y.length - 1) / B * B ≤ y.length := by
    simpa using le_trans (Nat.div_mul_le_self (y.length - 1) B) (Nat.sub_le _ _)
  have hbx : 0 + (y.length - 1) / B * B ≤ x.length := by
    rw [hxy]
    exact hby
  have hlen : ∀ b ∈ runLoader y.length (⟨x, y, B, 0, ds⟩ : Loader α β),
      b.1.length = B ∧ b.2.length = B := by
    rw [hrun]
    exact expectedBatches_row_len x y B hB _ 0 hbx hby
  have hcount : (runLoader y.length (⟨x, y, B, 0, ds⟩ : Loader α β)).length
      = (y.length - 1) / B := by
    rw [hrun]
    exact expectedBatches_length x y B _ 0
  refine ⟨hrun, hcount, hlen, ?_⟩
  rw [sum_map_row_len B _ (fun b hb => (hlen b hb).2), hcount]

/-- Witness for C2 (amended) at N = 3, B = 2: one full batch, one dropped
remainder row. -/
theorem claim2_witness :
    (1 ≤ 2 ∧ ([1, 2, 3] : List ℕ).length = ([4, 5, 6] : List ℕ).length)
    ∧ (runLoader ([4, 5, 6] : List ℕ).length ⟨[1, 2, 3], [4, 5, 6], 2, 0, false⟩
        = expectedBatches [1, 2, 3] [4, 5, 6] 2 0 ((([4, 5, 6] : List ℕ).length - 1) / 2)
      ∧ (runLoader ([4, 5, 6] : List ℕ).length
          (⟨[1, 2, 3], [4, 5, 6], 2, 0, false⟩ : Loader ℕ ℕ)).length
            = (([4, 5, 6] : List ℕ).length - 1) / 2
      ∧ (∀ b ∈ runLoader ([4, 5, 6] : List ℕ).length
            (⟨[1, 2, 3], [4, 5, 6], 2, 0, false⟩ : Loader ℕ ℕ),
          b.1.length = 2 ∧ b.2.length = 2)
      ∧ ((runLoader ([4, 5, 6] : List ℕ).length
            (⟨[1, 2, 3], [4, 5, 6], 2, 0, false⟩ : Loader ℕ ℕ)).map
              (fun b => b.2.length)).sum = (([4, 5, 6] : List ℕ).length - 1) / 2 * 2) :=
  ⟨⟨by decide, by decide⟩,
   claim2_loader_traversal ℕ ℕ [1, 2, 3] [4, 5, 6] 2 false (by decide) (by decide)⟩

/-- Claim C5 (counterexample): with frac = 0.0 the forward pass is not
independent of the random draws: a draw of exactly 0 is not greater than
frac, so its event is masked, and the prediction changes. -/
theorem claim5_counterexample :
    forward sampleModel 0 [0] sampleBatch ≠ forward sampleModel 0 [1] sampleBatch := by
  norm_num [forward, scoreEvent, userBiasMean, userVectMean, userBiasSum, userVectSum,
    smoothCount, visibleEvents, maskList, zeroVec, vadd, dot, sampleModel, sampleBatch,
    List.filterMap_cons, List.countP_cons]

/-- Claim C5 (amended): with frac = 0.0 the forward pass is deterministic
whenever every draw is strictly positive (which holds almost surely for
uniform draws in [0,1)): any two such calls on the same batch and tables
give identical predictions. -/
theorem claim5_deterministic_eval (m : MFAE) (batch : List Event) (d1 d2 : List ℚ)
    (h1 : d1.length = batch.length) (h2 : d2.length = batch.length)
    (hp1 : ∀ r ∈ d1, 0 < r) (hp2 : ∀ r ∈ d2, 0 < r) :
    forward m 0 d1 batch = forward m 0 d2 batch := by
  apply forward_congr_visible
  rw [visibleEvents_zero_frac batch d1 h1 hp1, visibleEvents_zero_frac batch d2 h2 hp2]

/-- Witness for C5 (amended) with two different positive draw vectors. -/
theorem claim5_witness :
    ([(1 : ℚ)]).length = sampleBatch.length
    ∧ ([(2 : ℚ)]).length = sampleBatch.length
    ∧ (∀ r ∈ [(1 : ℚ)], 0 < r)
    ∧ (∀ r ∈ [(2 : ℚ)], 0 < r)
    ∧ forward sampleModel 0 [1] sampleBatch = forward sampleModel 0 [2] sampleBatch :=
  ⟨by decide, by decide, by decide, by decide,
   claim5_deterministic_eval sampleModel sampleBatch [1] [2]
     (by decide) (by decide) (by decide) (by decide)⟩

/-- Claim C9 (counterexample): an event with item id equal to n_items
(here n_items = 1) and rating level 1 — both allowed by the claim —
derives code 11, which is out of range for the encoder table of size
1 × 10 + 1 = 11. -/
theorem claim9_counterexample :
    1 ≤ 1 ∧ 1 ≤ 10 ∧ ¬ item_code 1 1 < n_item_enc 1 := by decide

/-- Claim C9 (amended): for every event whose item id is strictly below
n_items and whose rating level is between 0 and 10, the derived
item-rating code is a valid row index of the encoder table of size
n_items × 10 + 1. -/
theorem claim9_code_in_range (n_item item rating : ℕ)
    (hi : item < n_item) (hr : rating ≤ 10) :
    item_code item rating < n_item_enc n_item := by
  simp only [item_code, n_item_enc]
  omega

/-- Witness for C9 (amended). -/
theorem claim9_witness : 0 < 3 ∧ 5 ≤ 10 ∧ item_code 0 5 < n_item_enc 3 :=
  ⟨by decide, by decide, claim9_code_in_range 3 0 5 (by decide) (by decide)⟩

/-- Claim C10 (counterexample): two restarted traversals of the same
shuffling loader are not identical: the fixed-seed permutation (modelled
by the swap on two rows) is applied to the already-permuted arrays, so the
second traversal sees the permutation applied twice. -/
theorem claim10_counterexample :
    runLoader 2 (loaderIter swapPerm (⟨[10, 20], [10, 20], 1, 0, true⟩ : Loader ℕ ℕ))
      ≠ runLoader 2 (loaderIter swapPerm (loaderIter swapPerm
          (⟨[10, 20], [10, 20], 1, 0, true⟩ : Loader ℕ ℕ))) := by decide

/-- Claim C10 (amended): with shuffling enabled, every restart applies one
joint fixed permutation to the current features and targets and resets the
cursor; the joint application keeps each feature row paired with its
original target row; but restarts compose — the next restart permutes the
already-permuted arrays again — so restarted traversals need not
coincide. -/
theorem claim10_restart_shuffle (α β : Type) (perm : ℕ → List ℕ) (s : Loader α β)
    (hs : s.do_shuffle = true) :
    (loaderIter perm s).x = applyPerm (perm s.y.length) s.x
    ∧ (loaderIter perm s).y = applyPerm (perm s.y.length) s.y
    ∧ (loaderIter perm s).current = 0
    ∧ (s.x.length = s.y.length → (∀ i ∈ perm s.y.length, i < s.x.length) →
        ((loaderIter perm s).x).zip ((loaderIter perm s).y)
          = applyPerm (perm s.y.length) (s.x.zip s.y))
    ∧ (loaderIter perm (loaderIter perm s)).y
        = applyPerm (perm (applyPerm (perm s.y.length) s.y).length)
            (applyPerm (perm s.y.length) s.y) := by
  refine ⟨?_, ?_, ?_, ?_, ?_⟩
  · simp [loaderIter, hs]
  · simp [loaderIter, hs]
  · simp [loaderIter, hs]
  · intro hlen hp
    simp only [loaderIter, hs, if_true]
    exact applyPerm_zip (perm s.y.length) s.x s.y hlen hp
  · simp [loaderIter, hs]

/-- Witness for C10 (amended) with the two-row swap permutation. -/
theorem claim10_witness :
    (⟨[10, 20], [30, 40], 1, 0, true⟩ : Loader ℕ ℕ).do_shuffle = true
    ∧ ((loaderIter swapPerm (⟨[10, 20], [30, 40], 1, 0, true⟩ : Loader ℕ ℕ)).x).zip
        ((loaderIter swapPerm (⟨[10, 20], [30, 40], 1, 0, true⟩ : Loader ℕ ℕ)).y)
        = applyPerm (swapPerm (⟨[10, 20], [30, 40], 1, 0, true⟩ : Loader ℕ ℕ).y.length)
            ((⟨[10, 20], [30, 40], 1, 0, true⟩ : Loader ℕ ℕ).x.zip
              (⟨[10, 20], [30, 40], 1, 0, true⟩ : Loader ℕ ℕ).y) :=
  ⟨by decide,
   (claim10_restart_shuffle ℕ ℕ swapPerm (⟨[10, 20], [30, 40], 1, 0, true⟩ : Loader ℕ ℕ)
       (by decide)).2.2.2.1 (by decide) (by decide)⟩
